import Mathlib

/-!
Shallow embedding of the crawler666 crawl orchestrator (Go sources:
engine part, pkg/proxy/manager.go, pkg/stealth/engine.go,
internal/models/models.go) together with theorems checking the
natural-language specification against it.

Times are modelled as natural numbers (milliseconds); Go's
`time.Since(t)` at instant `now` becomes `now - t` (truncated
subtraction, adequate because every recorded timestamp precedes `now`
in any run we consider).
-/

namespace Crawler

/-- Embeds `extractDomain` (engine source): the body is literally
`return url` — the documented "simplified domain extraction" stub. -/
def extractDomain (url : String) : String := url

/-- Embeds `DomainState` (engine source). Go zero value has
`Blocked = false`, `RequestRate = 0`. -/
structure DomainState where
  lastRequest : Nat
  requestRate : Nat
  blocked : Bool
  proxyPool : String
  deriving Repr, DecidableEq

/-- The scheduler's `domains` map, as an association list keyed by the
string produced by `extractDomain`. -/
abbrev DomainTable := List (String × DomainState)

/-- Map lookup `s.domains[domain]`. -/
def DomainTable.find (t : DomainTable) (k : String) : Option DomainState :=
  match t with
  | [] => none
  | (k', v) :: rest => if k' = k then some v else DomainTable.find rest k

/-- Map store `s.domains[domain] = state`. -/
def DomainTable.store (t : DomainTable) (k : String) (v : DomainState) : DomainTable :=
  match t with
  | [] => [(k, v)]
  | (k', v') :: rest =>
      if k' = k then (k', v) :: rest else (k', v') :: DomainTable.store rest k v

/-- Embeds `Scheduler.canScheduleTask` (engine source, given the task's
URL): look up the extracted domain; absent entry admits; a blocked entry
rejects; an entry within the rate-limit window rejects; otherwise admit.
`rateLimit` is `config.RateLimit` in milliseconds. -/
def canScheduleTask (rateLimit : Nat) (domains : DomainTable) (now : Nat)
    (url : String) : Bool :=
  match domains.find (extractDomain url) with
  | none => true
  | some state =>
      if state.blocked then false
      else if now - state.lastRequest < rateLimit then false
      else true

/-- Embeds `Scheduler.updateDomainState` (engine source): create the
entry from the Go zero value if absent, then set `LastRequest = now` and
increment `RequestRate`. -/
def updateDomainState (domains : DomainTable) (now : Nat) (url : String) :
    DomainTable :=
  let domain := extractDomain url
  let state :=
    match domains.find domain with
    | none => ({ lastRequest := 0, requestRate := 0, blocked := false,
                 proxyPool := "" } : DomainState)
    | some s => s
  domains.store domain { state with lastRequest := now,
                                    requestRate := state.requestRate + 1 }

/-- Embeds `models.CrawlTask` (the fields the scheduler and workers
read). -/
structure CrawlTask where
  id : String
  url : String
  deriving Repr, DecidableEq

/-- Embeds the loop body of `Scheduler.scheduleNextTasks` (engine
source). Each task is paired with the task queue's readiness at the
moment of its non-blocking submit attempt (`true` iff `select` can send,
i.e. the bounded channel has room then; workers drain concurrently so
readiness may change between attempts). When `canScheduleTask` rejects,
the task is skipped. When it admits and the queue has room, the task is
submitted and `updateDomainState` runs. When the queue is full, the
`default` branch runs `break` — which in Go exits only the `select`
statement, so the `for` loop continues with the next task. Returns the
final domain table and the list of submitted tasks in order. -/
def scheduleNextTasks (rateLimit : Nat) (now : Nat) (domains : DomainTable) :
    List (CrawlTask × Bool) → DomainTable × List CrawlTask
  | [] => (domains, [])
  | (task, free) :: rest =>
      if canScheduleTask rateLimit domains now task.url then
        if free then
          let domains' := updateDomainState domains now task.url
          let out := scheduleNextTasks rateLimit now domains' rest
          (out.1, task :: out.2)
        else
          scheduleNextTasks rateLimit now domains rest
      else
        scheduleNextTasks rateLimit now domains rest

/-- Embeds `proxy.Proxy` (pkg/proxy/manager.go), keeping the fields the
selection and health-check logic read or write. -/
structure Proxy where
  id : String
  host : String
  port : Nat
  healthy : Bool
  failCount : Nat
  deriving Repr, DecidableEq

/-- Go zero value of `Proxy` (used only as the out-of-range default of
`List.getD`; the code never indexes out of range). -/
def dummyProxy : Proxy :=
  { id := "", host := "", port := 0, healthy := false, failCount := 0 }

instance : Inhabited Proxy := ⟨dummyProxy⟩

/-- The usability test inlined in `Pool.getHealthyProxy`:
`proxy.Healthy && proxy.FailCount < 5`. -/
def usable (p : Proxy) : Bool := p.healthy && decide (p.failCount < 5)

/-- Embeds `proxy.Pool`: the proxy slice plus the rotation cursor
`Current`. -/
structure Pool where
  proxies : List Proxy
  current : Nat
  deriving Repr

/-- The scan loop of `Pool.getHealthyProxy`: `fuel` plays the role of
`len(p.Proxies) - attempts` (the loop body runs at most `len` times; the
counter `attempts` only advances on iterations that do not return). Each
iteration reads `Proxies[Current]`, advances `Current` modulo the
length, and returns the index just read when that proxy is usable. -/
def ghpGo (ps : List Proxy) : Nat → Nat → Option Nat × Nat
  | 0, cur => (none, cur)
  | fuel + 1, cur =>
      let cur' := (cur + 1) % ps.length
      if usable (ps.getD cur dummyProxy) then (some cur, cur')
      else ghpGo ps fuel cur'

/-- Embeds `Pool.getHealthyProxy` (pkg/proxy/manager.go): `nil` on an
empty pool, otherwise the round-robin scan starting at the cursor, for
at most one full rotation. Returns the index of the proxy handed out
(identifying the returned `*Proxy` within the fixed slice) and the new
cursor. -/
def getHealthyProxy (pool : Pool) : Option Nat × Nat :=
  if pool.proxies.length = 0 then (none, pool.current)
  else ghpGo pool.proxies pool.proxies.length pool.current

/-- One `GetProxy` call's effect on the pool: the proxies are untouched,
the cursor becomes the one `getHealthyProxy` leaves behind. -/
def poolStep (pool : Pool) : Pool :=
  { pool with current := (getHealthyProxy pool).2 }

/-- The pool after `k` sequential `GetProxy` calls. -/
def poolIter (pool : Pool) : Nat → Pool
  | 0 => pool
  | k + 1 => poolStep (poolIter pool k)

/-- The index returned by the `(k+1)`-st sequential `GetProxy` call on
the pool (`none` when the scan finds no usable proxy). -/
def retAt (pool : Pool) (k : Nat) : Option Nat :=
  (getHealthyProxy (poolIter pool k)).1

/-- Embeds `Manager.GetProxy` restricted to the selected pool (with the
proxy subsystem enabled): error `"no healthy proxies available"` when
the scan fails, otherwise the chosen index. -/
def getProxyFromPool (pool : Pool) : Except String Nat :=
  match (getHealthyProxy pool).1 with
  | none => .error "no healthy proxies available"
  | some i => .ok i

/-- Outcome of a health probe `client.Get(h.testURL)`:
`transportError` covers every case where Go's `err != nil` (timeouts
and transport failures); `response status` is a completed HTTP exchange
with the given status code (`err == nil`). -/
inductive ProbeResult where
  | transportError
  | response (status : Nat)
  deriving Repr, DecidableEq

/-- Embeds the state update of `HealthChecker.checkProxy`
(pkg/proxy/manager.go lines 204–215): on `err != nil` set
`Healthy = false` and increment `FailCount`; otherwise set
`Healthy = true` and reset `FailCount = 0`. The status code of a
completed response is never consulted. -/
def checkProxy (p : Proxy) (r : ProbeResult) : Proxy :=
  match r with
  | .transportError => { p with healthy := false, failCount := p.failCount + 1 }
  | .response _ => { p with healthy := true, failCount := 0 }

/-- Embeds `stealth.Config` (pkg/stealth/engine.go). -/
structure StealthConfig where
  enabled : Bool
  fingerprintRotation : Bool
  canvasNoise : Bool
  webglSpoofing : Bool
  userAgentRotation : Bool
  deriving Repr, DecidableEq

/-- Embeds `stealth.Profile`, keeping the fields the claims mention.
The Go zero value `&Profile{}` has every string empty. -/
structure Profile where
  userAgent : String
  language : String
  deriving Repr, DecidableEq

/-- Embeds `Engine.selectRandomUserAgent`: the hardcoded fallback
`"Crawler666/1.0"` when rotation is off or the list is empty, otherwise
a uniformly random element — the draw `rand.Intn(len)` is modelled by an
oracle `k` reduced modulo the list length. -/
def selectRandomUserAgent (cfg : StealthConfig) (userAgents : List String)
    (k : Nat) : String :=
  if !cfg.userAgentRotation || userAgents.length = 0 then "Crawler666/1.0"
  else userAgents.getD (k % userAgents.length) ""

/-- Embeds `Engine.GenerateProfile` (pkg/stealth/engine.go): when the
stealth subsystem is disabled it returns the zero value `&Profile{}`;
otherwise it builds a randomized profile (user-agent via
`selectRandomUserAgent`, fixed language). The target URL is ignored by
the Go body. -/
def generateProfile (cfg : StealthConfig) (userAgents : List String)
    (k : Nat) (_targetURL : String) : Profile :=
  if !cfg.enabled then { userAgent := "", language := "" }
  else { userAgent := selectRandomUserAgent cfg userAgents k,
         language := "en-US,en;q=0.9" }

/-- The body-capture buffer size in `Worker.crawlURL`:
`make([]byte, 1024*1024)`. -/
def bodyLimit : Nat := 1024 * 1024

/-- Embeds `models.CrawlData` (the fields `crawlURL` populates that the
claims mention). `content` holds the captured body bytes. -/
structure CrawlData where
  url : String
  statusCode : Nat
  content : List UInt8
  deriving Repr, DecidableEq

/-- The single `resp.Body.Read(body)` call in `Worker.crawlURL`: the
transport delivers at most `chunk` bytes in this one call (Go's
`io.Reader` may return fewer bytes than remain in the body), the buffer
holds `bodyLimit` bytes, and no more than the whole body can arrive; the
returned count `n` is the minimum of the three. The error return is
discarded by the code (`n, _ :=`). -/
def readOnce (body : List UInt8) (chunk : Nat) : Nat :=
  min chunk (min body.length bodyLimit)

/-- Embeds the success path of `Worker.crawlURL` (engine source):
status and headers are copied from the response, then one `Read` into
the 1 MiB buffer captures `Content = string(body[:n])`. `chunk` is the
byte count the transport makes available to that single `Read`. -/
def crawlURL (url : String) (status : Nat) (body : List UInt8)
    (chunk : Nat) : CrawlData :=
  { url := url, statusCode := status,
    content := body.take (readOnce body chunk) }

/-- Embeds `models.CrawlResult` (the fields `processTask` writes). -/
structure CrawlResult where
  taskId : String
  url : String
  workerId : String
  success : Bool
  data : Option CrawlData
  error : String
  deriving Repr, DecidableEq

/-- Embeds `CrawlStats` (the counters `processTask` touches). -/
structure CrawlStats where
  totalRequests : Nat
  successfulCrawls : Nat
  failedCrawls : Nat
  deriving Repr, DecidableEq

def CrawlStats.zero : CrawlStats :=
  { totalRequests := 0, successfulCrawls := 0, failedCrawls := 0 }

/-- The per-task environment a worker encounters: the outcome of
`proxyMgr.GetProxy` (an error, or `none`/`some` proxy — Go returns
`(nil, nil)` when the proxy subsystem is disabled), of
`stealthEng.GenerateProfile`, and of the fetch `crawlURL`. -/
structure TaskEnv where
  proxyRes : Except String (Option Proxy)
  profileRes : Except String Profile
  fetchRes : Except String CrawlData

/-- Embeds `Worker.processTask` (engine source): increment
`TotalRequests`; build the result with the task's id/URL and the
worker's id; on proxy error publish one result carrying
`"Failed to get proxy: "` + the error; on profile error likewise; on
fetch error record the error and bump `FailedCrawls`, on fetch success
record the data, set `Success`, and bump `SuccessfulCrawls`; publish the
result. Returns the list of results sent to `Engine.results` (in order)
and the updated stats. -/
def processTask (workerId : String) (stats : CrawlStats) (task : CrawlTask)
    (env : TaskEnv) : List CrawlResult × CrawlStats :=
  let stats := { stats with totalRequests := stats.totalRequests + 1 }
  let result : CrawlResult :=
    { taskId := task.id, url := task.url, workerId := workerId,
      success := false, data := none, error := "" }
  match env.proxyRes with
  | .error e => ([{ result with error := "Failed to get proxy: " ++ e }], stats)
  | .ok _ =>
      match env.profileRes with
      | .error e =>
          ([{ result with error := "Failed to generate stealth profile: " ++ e }],
           stats)
      | .ok _ =>
          match env.fetchRes with
          | .error e =>
              ([{ result with error := e }],
               { stats with failedCrawls := stats.failedCrawls + 1 })
          | .ok data =>
              ([{ result with data := some data, success := true }],
               { stats with successfulCrawls := stats.successfulCrawls + 1 })

/-- The four outcome classes of a processed task, determined by which
step failed first. -/
inductive Outcome where
  | proxyError
  | profileError
  | fetchFailure
  | success
  deriving Repr, DecidableEq

/-- Classify a task environment into its outcome class. -/
def TaskEnv.outcome (env : TaskEnv) : Outcome :=
  match env.proxyRes with
  | .error _ => .proxyError
  | .ok _ =>
      match env.profileRes with
      | .error _ => .profileError
      | .ok _ =>
          match env.fetchRes with
          | .error _ => .fetchFailure
          | .ok _ => .success

/-- Fold `processTask` over a batch of tasks, threading the stats and
collecting every published result — the quiescent state after the batch
has been processed and no task is mid-flight. -/
def runTasks (workerId : String) (stats : CrawlStats) :
    List (CrawlTask × TaskEnv) → List CrawlResult × CrawlStats
  | [] => ([], stats)
  | (task, env) :: rest =>
      let out := processTask workerId stats task env
      let outRest := runTasks workerId out.2 rest
      (out.1 ++ outRest.1, outRest.2)

/-- Count the tasks of a batch whose outcome falls in class `c`. -/
def countOutcome (c : Outcome) (batch : List (CrawlTask × TaskEnv)) : Nat :=
  (batch.filter (fun p => p.2.outcome = c)).length

/-- Drop everything up to and including the first "://" of a URL's
character list (helper for `specHost`). -/
def dropScheme : List Char → List Char
  | ':' :: '/' :: '/' :: rest => rest
  | _ :: rest => dropScheme rest
  | [] => []

/-- Keep characters up to the first path separator (helper for
`specHost`). -/
def takeHost : List Char → List Char
  | [] => []
  | c :: rest => if c = '/' then [] else c :: takeHost rest

/-- Modelled from the spec: the host-extraction step of the "full URL
parser" that the DomainTable section requires — the source's
`extractDomain` is the documented stub returning the whole URL. Used
only to state which URLs live on the same host/registrable domain. -/
def specHost (url : String) : String :=
  String.mk (takeHost (dropScheme url.data))

/-- Domain tables reachable from the engine's initial empty map through
the core's two mutating operations: a single `updateDomainState` (run on
every successful submit) and a whole scheduler tick. -/
inductive DomainsReachable : DomainTable → Prop where
  | init : DomainsReachable []
  | update (ds : DomainTable) (now : Nat) (url : String) :
      DomainsReachable ds → DomainsReachable (updateDomainState ds now url)
  | tick (ds : DomainTable) (rateLimit now : Nat)
      (batch : List (CrawlTask × Bool)) :
      DomainsReachable ds →
      DomainsReachable (scheduleNextTasks rateLimit now ds batch).1

/-- Whether proxy number `i mod length` of the slice is usable; the
periodic index coordinate used to reason about the round-robin scan on
an unrolled number line. -/
def usableAt (ps : List Proxy) (i : Nat) : Bool :=
  usable (ps.getD (i % ps.length) dummyProxy)

/-- Bounded linear search: the first position `b` with
`a ≤ b < a + fuel` at which `usableAt` holds. -/
def firstUsableFrom (ps : List Proxy) : Nat → Nat → Option Nat
  | _, 0 => none
  | a, fuel + 1 =>
      if usableAt ps a then some a else firstUsableFrom ps (a + 1) fuel

/-- The least `b ≥ a` with `usableAt ps b` (one full rotation suffices
whenever any usable proxy exists; defaults to `a` otherwise). -/
def nextUsable (ps : List Proxy) (a : Nat) : Nat :=
  (firstUsableFrom ps a ps.length).getD a

/-- The unrolled-line position handed out by the `(k+1)`-st sequential
scan when the pool's proxies stay fixed: the scan resumes one past the
previous return. -/
def Rseq (ps : List Proxy) (c0 : Nat) : Nat → Nat
  | 0 => nextUsable ps c0
  | k + 1 => nextUsable ps (Rseq ps c0 k + 1)

/-- Number of usable proxies in the slice. -/
def usableCount (ps : List Proxy) : Nat :=
  ((Finset.range ps.length).filter
    (fun i => usable (ps.getD i dummyProxy) = true)).card

/-- Number of usable positions in the half-open-from-the-left interval
`(a, b]` of the unrolled line. -/
def usableBetween (ps : List Proxy) (a b : Nat) : Nat :=
  ((Finset.Ioc a b).filter (fun x => usableAt ps x = true)).card

/-! ## Theorems -/

/-- C1: divergence witness. Two tasks whose URLs live on the same host
`a.example` are both admitted by the scheduler in one tick, at the same
instant `now = 1000`, under `rate_limit = 500` ms: the inter-admission
interval for the shared domain is `0 < rate_limit`, because
`extractDomain` keys the table by the raw URL and the two URLs differ.
The claim's guarantee `t₂ - t₁ ≥ rate_limit` per registrable domain
therefore fails on the code. -/
theorem c1_rate_limit_violated_across_same_domain :
    specHost "http://a.example/1" = specHost "http://a.example/2" ∧
    (scheduleNextTasks 500 1000 []
        [(⟨"t1", "http://a.example/1"⟩, true),
         (⟨"t2", "http://a.example/2"⟩, true)]).2
      = [⟨"t1", "http://a.example/1"⟩, ⟨"t2", "http://a.example/2"⟩] := by
  exact ⟨rfl, rfl⟩

/-- C2: divergence witness. `extractDomain` is the identity on the URL
string, so two distinct URLs on the same host `a.example` map to two
distinct domain-table keys and `updateDomainState` creates two separate
entries — not the single `DomainState` per registrable domain the claim
describes. -/
theorem c2_domain_key_is_raw_url :
    extractDomain "http://a.example/1" = "http://a.example/1" ∧
    extractDomain "http://a.example/1" ≠ extractDomain "http://a.example/2" ∧
    specHost "http://a.example/1" = specHost "http://a.example/2" ∧
    (updateDomainState (updateDomainState [] 5 "http://a.example/1") 5
        "http://a.example/2").length = 2 := by
  refine ⟨rfl, ?_, rfl, rfl⟩
  decide

/-- C3 counterexample: a probe that completes with HTTP status 500 (a
non-2xx response, `err == nil` in Go) leaves the proxy with
`healthy = true` and `fail-count = 0`; the claim requires a non-2xx
response to yield `healthy = false` and a strictly increased
fail-count. -/
theorem c3_counterexample_non2xx_counts_as_success :
    (checkProxy ⟨"p0", "h", 1, true, 2⟩ (ProbeResult.response 500)).healthy
        = true ∧
    (checkProxy ⟨"p0", "h", 1, true, 2⟩ (ProbeResult.response 500)).failCount
        = 0 := ⟨rfl, rfl⟩

/-- C3 (amended): for every proxy and every single health probe, if the
probe's `client.Get` returns an error (timeout or transport failure) the
state afterwards has `healthy = false` and a fail-count strictly greater
than before; if any HTTP response is received — regardless of its status
code — the state afterwards has `healthy = true` and `fail-count = 0`. -/
theorem c3_probe_transitions (p : Proxy) (r : ProbeResult) :
    (r = ProbeResult.transportError →
      (checkProxy p r).healthy = false ∧
      (checkProxy p r).failCount = p.failCount + 1) ∧
    (∀ s, r = ProbeResult.response s →
      (checkProxy p r).healthy = true ∧ (checkProxy p r).failCount = 0) := by
  cases r <;> simp [checkProxy]

/-- C3 witness: the amended transitions evaluated on concrete probes. -/
theorem c3_probe_transitions_witness :
    (checkProxy ⟨"p0", "h", 1, true, 3⟩ ProbeResult.transportError).healthy
        = false ∧
    (checkProxy ⟨"p0", "h", 1, true, 3⟩ ProbeResult.transportError).failCount
        = 4 ∧
    (checkProxy ⟨"p0", "h", 1, false, 3⟩ (ProbeResult.response 200)).healthy
        = true :=
  ⟨((c3_probe_transitions _ _).1 rfl).1,
   ((c3_probe_transitions _ _).1 rfl).2,
   ((c3_probe_transitions _ _).2 200 rfl).1⟩

/-- C4: divergence witness. The body is read by a single
`resp.Body.Read` call, so when the transport delivers fewer bytes than
the body holds (here: a 2-byte body delivered 1 byte per read), the
captured content is just that first chunk — not the claim's
`min(body length, 1 MiB)` prefix, which for this body is the whole
2-byte body. -/
theorem c4_single_read_misses_rest_of_body :
    (crawlURL "http://a.example/" 200 [7, 8] 1).content = [7] ∧
    ([7, 8] : List UInt8).take
        (min ([7, 8] : List UInt8).length bodyLimit) = [7, 8] := by
  exact ⟨rfl, rfl⟩

/-- C5 counterexample: with the task queue full at the first submit
attempt and free again at the second (workers drain concurrently), the
tick still submits the second task — the `break` in the Go `select`
exits only the `select`, so the tick does not end at the first
queue-full event as the claim states. -/
theorem c5_counterexample_tick_continues_after_queue_full :
    (scheduleNextTasks 500 1000 []
        [(⟨"t1", "http://a.example/"⟩, false),
         (⟨"t2", "http://b.example/"⟩, true)]).2
      = [⟨"t2", "http://b.example/"⟩] := rfl

/-- C5 (amended): a queue-full submit attempt skips that task — it is
neither submitted nor has its domain state updated — and the tick
continues with the remaining tasks; every submitted task had a free
queue slot at its attempt; and when the queue is at capacity for the
whole tick, zero tasks are submitted and the domain table is
unchanged. -/
theorem c5_queue_full_skips_task (rl now : Nat) (ds : DomainTable)
    (batch : List (CrawlTask × Bool)) :
    ((∀ p ∈ batch, p.2 = false) →
      scheduleNextTasks rl now ds batch = (ds, [])) ∧
    (∀ t ∈ (scheduleNextTasks rl now ds batch).2, (t, true) ∈ batch) := by
  induction batch generalizing ds with
  | nil =>
      exact ⟨fun _ => rfl, fun t ht => by simp [scheduleNextTasks] at ht⟩
  | cons p rest ih =>
      obtain ⟨task, free⟩ := p
      constructor
      · intro h
        have hf : free = false := h (task, free) (by simp)
        subst hf
        have hrest : ∀ q ∈ rest, q.2 = false := fun q hq => h q (by simp [hq])
        by_cases hc : canScheduleTask rl ds now task.url = true
        · simpa [scheduleNextTasks, hc] using (ih ds).1 hrest
        · simp only [Bool.not_eq_true] at hc
          simpa [scheduleNextTasks, hc] using (ih ds).1 hrest
      · intro t ht
        by_cases hc : canScheduleTask rl ds now task.url = true
        · cases free with
          | true =>
              simp only [scheduleNextTasks, hc, if_true] at ht
              rcases List.mem_cons.mp ht with h1 | h1
              · subst h1; exact List.mem_cons_self _ _
              · exact List.mem_cons_of_mem _
                  ((ih (updateDomainState ds now task.url)).2 t h1)
          | false =>
              simp only [scheduleNextTasks, hc, if_true, if_false] at ht
              exact List.mem_cons_of_mem _ ((ih ds).2 t ht)
        · simp only [Bool.not_eq_true] at hc
          simp only [scheduleNextTasks, hc] at ht
          exact List.mem_cons_of_mem _ ((ih ds).2 t ht)

/-- C5 witness: the amended statement evaluated on a concrete all-full
tick. -/
theorem c5_queue_full_skips_task_witness :
    scheduleNextTasks 500 1000 [] [(⟨"t1", "http://a.example/"⟩, false)]
      = ([], []) :=
  (c5_queue_full_skips_task 500 1000 [] _).1 (by simp)

/-- C6 counterexample: with the stealth engine disabled,
`GenerateProfile` returns the Go zero-value `&Profile{}`, whose
user-agent is the empty string — not the default user-agent
`"Crawler666/1.0"` the claim requires, and empty besides. -/
theorem c6_counterexample_disabled_profile_has_empty_ua :
    (generateProfile ⟨false, true, true, true, true⟩ ["ua1"] 0
        "http://a.example/").userAgent = "" ∧
    ("" : String) ≠ "Crawler666/1.0" := by
  exact ⟨rfl, by decide⟩

/-- C6 (amended): when the stealth engine is disabled,
`GenerateProfile` returns the zero-value minimal profile — its
user-agent is the empty string — for every target URL; the hardcoded
default user-agent appears only on the enabled path when user-agent
rotation is off or the list is empty. -/
theorem c6_disabled_profile_is_zero_value (cfg : StealthConfig)
    (uas : List String) (k : Nat) (url : String) :
    (cfg.enabled = false →
      generateProfile cfg uas k url = { userAgent := "", language := "" }) ∧
    (cfg.enabled = true → cfg.userAgentRotation = false →
      (generateProfile cfg uas k url).userAgent = "Crawler666/1.0") := by
  constructor
  · intro h
    simp [generateProfile, h]
  · intro h hr
    simp [generateProfile, selectRandomUserAgent, h, hr]

/-- C6 witness: the amended statement evaluated on concrete configs. -/
theorem c6_disabled_profile_is_zero_value_witness :
    generateProfile ⟨false, false, false, false, false⟩ [] 3 "u"
        = { userAgent := "", language := "" } ∧
    (generateProfile ⟨true, false, false, false, false⟩ ["x"] 3 "u").userAgent
        = "Crawler666/1.0" :=
  ⟨(c6_disabled_profile_is_zero_value _ _ _ _).1 rfl,
   (c6_disabled_profile_is_zero_value _ _ _ _).2 rfl rfl⟩

/-- C8: for every task a worker pulls from the queue, `processTask`
publishes exactly one `CrawlResult` to the result channel; the result
carries the worker's id and the task's id and URL; every per-task
failure — proxy acquisition, profile generation, or fetch — is captured
in the result's error field (with the code's wrapping prefixes) rather
than raised; on success the result carries the data, an empty error, and
`success = true`. -/
theorem c8_exactly_one_result_per_task (wid : String) (stats : CrawlStats)
    (task : CrawlTask) (env : TaskEnv) :
    ∃ r : CrawlResult,
      (processTask wid stats task env).1 = [r] ∧
      r.taskId = task.id ∧ r.workerId = wid ∧ r.url = task.url ∧
      (env.outcome = Outcome.proxyError → r.success = false ∧
        ∃ e, env.proxyRes = Except.error e ∧
          r.error = "Failed to get proxy: " ++ e) ∧
      (env.outcome = Outcome.profileError → r.success = false ∧
        ∃ e, env.profileRes = Except.error e ∧
          r.error = "Failed to generate stealth profile: " ++ e) ∧
      (env.outcome = Outcome.fetchFailure → r.success = false ∧
        ∃ e, env.fetchRes = Except.error e ∧ r.error = e) ∧
      (env.outcome = Outcome.success → r.success = true ∧ r.error = "" ∧
        ∃ d, env.fetchRes = Except.ok d ∧ r.data = some d) := by
  rcases env with ⟨pr, fr, cr⟩
  cases pr with
  | error e =>
      refine ⟨_, rfl, rfl, rfl, rfl, fun _ => ⟨rfl, e, rfl, rfl⟩,
        ?_, ?_, ?_⟩ <;>
        · intro h
          simp [TaskEnv.outcome] at h
  | ok prx =>
      cases fr with
      | error e =>
          refine ⟨_, rfl, rfl, rfl, rfl, ?_,
            fun _ => ⟨rfl, e, rfl, rfl⟩, ?_, ?_⟩ <;>
            · intro h
              simp [TaskEnv.outcome] at h
      | ok prof =>
          cases cr with
          | error e =>
              refine ⟨_, rfl, rfl, rfl, rfl, ?_, ?_,
                fun _ => ⟨rfl, e, rfl, rfl⟩, ?_⟩ <;>
                · intro h
                  simp [TaskEnv.outcome] at h
          | ok d =>
              refine ⟨_, rfl, rfl, rfl, rfl, ?_, ?_, ?_,
                fun _ => ⟨rfl, rfl, d, rfl, rfl⟩⟩ <;>
                · intro h
                  simp [TaskEnv.outcome] at h

/-- C8 witness: a concrete fetch-failure task publishes exactly one
result with the error captured in the error field. -/
theorem c8_exactly_one_result_per_task_witness :
    ∃ r : CrawlResult,
      (processTask "w0" CrawlStats.zero ⟨"t1", "u1"⟩
          ⟨Except.ok none, Except.ok ⟨"ua", "l"⟩, Except.error "boom"⟩).1
        = [r] ∧ r.success = false ∧ r.error = "boom" := by
  obtain ⟨r, hpub, _, _, _, _, _, hf, _⟩ :=
    c8_exactly_one_result_per_task "w0" CrawlStats.zero ⟨"t1", "u1"⟩
      ⟨Except.ok none, Except.ok ⟨"ua", "l"⟩, Except.error "boom"⟩
  obtain ⟨hs, e, he, herr⟩ := hf rfl
  have he' : e = "boom" := by
    injection he with h
    exact h.symm
  exact ⟨r, hpub, hs, by rw [herr, he']⟩

/-- Unfolding of `countOutcome` on a cons cell. -/
theorem countOutcome_cons (c : Outcome) (p : CrawlTask × TaskEnv)
    (rest : List (CrawlTask × TaskEnv)) :
    countOutcome c (p :: rest)
      = (if p.2.outcome = c then 1 else 0) + countOutcome c rest := by
  simp only [countOutcome, List.filter_cons]
  by_cases h : p.2.outcome = c
  · simp [h, Nat.add_comm]
  · simp [h]

/-- Stats accounting of a worker batch, threaded from arbitrary starting
counters: one `TotalRequests` increment per task, `SuccessfulCrawls`
and `FailedCrawls` incremented exactly on their outcome classes, and one
published result per task. -/
theorem runTasks_stats (wid : String) (stats : CrawlStats)
    (batch : List (CrawlTask × TaskEnv)) :
    (runTasks wid stats batch).2.totalRequests
        = stats.totalRequests + batch.length ∧
    (runTasks wid stats batch).2.successfulCrawls
        = stats.successfulCrawls + countOutcome Outcome.success batch ∧
    (runTasks wid stats batch).2.failedCrawls
        = stats.failedCrawls + countOutcome Outcome.fetchFailure batch ∧
    (runTasks wid stats batch).1.length = batch.length := by
  induction batch generalizing stats with
  | nil => simp [runTasks, countOutcome]
  | cons p rest ih =>
      obtain ⟨task, env⟩ := p
      rcases env with ⟨pr, fr, cr⟩
      have hcount := fun c =>
        countOutcome_cons c (task, ⟨pr, fr, cr⟩) rest
      cases pr with
      | error e =>
          obtain ⟨h1, h2, h3, h4⟩ :=
            ih { stats with totalRequests := stats.totalRequests + 1 }
          refine ⟨?_, ?_, ?_, ?_⟩ <;>
            simp_all [runTasks, processTask, TaskEnv.outcome] <;> omega
      | ok prx =>
          cases fr with
          | error e =>
              obtain ⟨h1, h2, h3, h4⟩ :=
                ih { stats with totalRequests := stats.totalRequests + 1 }
              refine ⟨?_, ?_, ?_, ?_⟩ <;>
                simp_all [runTasks, processTask, TaskEnv.outcome] <;> omega
          | ok prof =>
              cases cr with
              | error e =>
                  obtain ⟨h1, h2, h3, h4⟩ :=
                    ih { stats with
                          totalRequests := stats.totalRequests + 1,
                          failedCrawls := stats.failedCrawls + 1 }
                  refine ⟨?_, ?_, ?_, ?_⟩ <;>
                    simp_all [runTasks, processTask, TaskEnv.outcome] <;> omega
              | ok d =>
                  obtain ⟨h1, h2, h3, h4⟩ :=
                    ih { stats with
                          totalRequests := stats.totalRequests + 1,
                          successfulCrawls := stats.successfulCrawls + 1 }
                  refine ⟨?_, ?_, ?_, ?_⟩ <;>
                    simp_all [runTasks, processTask, TaskEnv.outcome] <;> omega

/-- Every task falls into exactly one of the four outcome classes: the
four class counts partition the batch. -/
theorem countOutcome_partition (batch : List (CrawlTask × TaskEnv)) :
    countOutcome Outcome.success batch
      + countOutcome Outcome.fetchFailure batch
      + countOutcome Outcome.proxyError batch
      + countOutcome Outcome.profileError batch = batch.length := by
  induction batch with
  | nil => simp [countOutcome]
  | cons p rest ih =>
      rw [countOutcome_cons, countOutcome_cons, countOutcome_cons,
        countOutcome_cons]
      cases h : p.2.outcome <;> simp [h] <;> omega

/-- C9: at the quiescent point after a worker has processed a batch of
tasks starting from zeroed counters, `total-requests` equals the number
of successful results plus fetch-failure results plus proxy-error
results plus profile-error results; each task increments
`total-requests` exactly once (the counter equals the batch length, and
exactly one result per task was published), falls into exactly one of
the four outcome classes, and the success/failure counters match their
classes. -/
theorem c9_stats_partition_invariant (wid : String)
    (batch : List (CrawlTask × TaskEnv)) :
    (runTasks wid CrawlStats.zero batch).2.totalRequests
        = countOutcome Outcome.success batch
          + countOutcome Outcome.fetchFailure batch
          + countOutcome Outcome.proxyError batch
          + countOutcome Outcome.profileError batch ∧
    (runTasks wid CrawlStats.zero batch).2.totalRequests = batch.length ∧
    (runTasks wid CrawlStats.zero batch).2.successfulCrawls
        = countOutcome Outcome.success batch ∧
    (runTasks wid CrawlStats.zero batch).2.failedCrawls
        = countOutcome Outcome.fetchFailure batch ∧
    (runTasks wid CrawlStats.zero batch).1.length = batch.length := by
  obtain ⟨h1, h2, h3, h4⟩ := runTasks_stats wid CrawlStats.zero batch
  have hp := countOutcome_partition batch
  have hz1 : CrawlStats.zero.totalRequests = 0 := rfl
  have hz2 : CrawlStats.zero.successfulCrawls = 0 := rfl
  have hz3 : CrawlStats.zero.failedCrawls = 0 := rfl
  exact ⟨by omega, by omega, by omega, by omega, h4⟩

/-- A successful lookup finds an entry of the table. -/
theorem DomainTable.find_mem (t : DomainTable) (k : String) (v : DomainState)
    (h : t.find k = some v) : (k, v) ∈ t := by
  induction t with
  | nil => simp [DomainTable.find] at h
  | cons kv rest ih =>
      obtain ⟨k', v'⟩ := kv
      by_cases hk : k' = k
      · subst hk
        simp only [DomainTable.find, if_true, eq_self_iff_true,
          Option.some.injEq] at h
        subst h
        exact List.mem_cons_self _ _
      · simp only [DomainTable.find, if_neg hk] at h
        exact List.mem_cons_of_mem _ (ih h)

/-- Storing an unblocked state into an all-unblocked table keeps every
entry unblocked. -/
theorem DomainTable.store_unblocked (t : DomainTable) (k : String)
    (v : DomainState) (ht : ∀ kv ∈ t, kv.2.blocked = false)
    (hv : v.blocked = false) :
    ∀ kv ∈ t.store k v, kv.2.blocked = false := by
  induction t with
  | nil =>
      intro kv hkv
      simp only [DomainTable.store, List.mem_singleton] at hkv
      subst hkv
      exact hv
  | cons kv' rest ih =>
      obtain ⟨k', v'⟩ := kv'
      intro kv hkv
      by_cases hk : k' = k
      · simp only [DomainTable.store, if_pos hk, List.mem_cons] at hkv
        rcases hkv with h1 | h1
        · subst h1; exact hv
        · exact ht kv (List.mem_cons_of_mem _ h1)
      · simp only [DomainTable.store, if_neg hk, List.mem_cons] at hkv
        rcases hkv with h1 | h1
        · subst h1
          exact ht (k', v') (List.mem_cons_self _ _)
        · exact ih (fun q hq => ht q (List.mem_cons_of_mem _ hq)) kv h1

/-- `updateDomainState` never sets a blocked flag: it copies the flag of
an existing entry and creates new entries with `blocked = false`. -/
theorem updateDomainState_unblocked (ds : DomainTable) (now : Nat)
    (url : String) (h : ∀ kv ∈ ds, kv.2.blocked = false) :
    ∀ kv ∈ updateDomainState ds now url, kv.2.blocked = false := by
  unfold updateDomainState
  cases hf : ds.find (extractDomain url) with
  | none =>
      simp only [hf]
      exact DomainTable.store_unblocked ds _ _ h rfl
  | some st =>
      simp only [hf]
      exact DomainTable.store_unblocked ds _ _ h
        (h _ (DomainTable.find_mem ds _ st hf))

/-- A whole scheduler tick never sets a blocked flag either. -/
theorem scheduleNextTasks_unblocked (rl now : Nat) (ds : DomainTable)
    (batch : List (CrawlTask × Bool)) (h : ∀ kv ∈ ds, kv.2.blocked = false) :
    ∀ kv ∈ (scheduleNextTasks rl now ds batch).1, kv.2.blocked = false := by
  induction batch generalizing ds with
  | nil => exact h
  | cons p rest ih =>
      obtain ⟨task, free⟩ := p
      by_cases hc : canScheduleTask rl ds now task.url = true
      · cases free with
        | true =>
            simp only [scheduleNextTasks, hc, if_true]
            exact ih _ (updateDomainState_unblocked ds now task.url h)
        | false =>
            simp only [scheduleNextTasks, hc, if_true, if_false]
            exact ih _ h
      · simp only [Bool.not_eq_true] at hc
        simp only [scheduleNextTasks, hc]
        exact ih _ h

/-- Every reachable domain table is entirely unblocked. -/
theorem domainsReachable_unblocked (ds : DomainTable)
    (h : DomainsReachable ds) : ∀ kv ∈ ds, kv.2.blocked = false := by
  induction h with
  | init => intro kv hkv; simp at hkv
  | update ds now url _ ih => exact updateDomainState_unblocked ds now url ih
  | tick ds rl now batch _ ih => exact scheduleNextTasks_unblocked rl now ds batch ih

/-- C10: no core operation ever sets a `DomainState`'s blocked flag —
every table reachable from the initial empty map through
`updateDomainState` and scheduler ticks has `blocked = false` in all its
entries — so for every task whose domain entry exists and whose
rate-limit window has elapsed, the admission check returns `true` (the
blocked branch never rejects). -/
theorem c10_blocked_flag_never_set (ds : DomainTable)
    (h : DomainsReachable ds) :
    (∀ kv ∈ ds, kv.2.blocked = false) ∧
    (∀ rl now url st, ds.find (extractDomain url) = some st →
      rl ≤ now - st.lastRequest → canScheduleTask rl ds now url = true) := by
  have hub := domainsReachable_unblocked ds h
  refine ⟨hub, fun rl now url st hfind hwin => ?_⟩
  have hb : st.blocked = false :=
    hub _ (DomainTable.find_mem ds _ st hfind)
  have hlt : ¬ now - st.lastRequest < rl := Nat.not_lt.mpr hwin
  simp [canScheduleTask, hfind, hb, hlt]

/-- C10 witness: after one admission for a URL at time 100, the table is
reachable, unblocked, and re-admits that URL once the window (50 ms) has
elapsed at time 200. -/
theorem c10_blocked_flag_never_set_witness :
    canScheduleTask 50 (updateDomainState [] 100 "http://a.example/") 200
      "http://a.example/" = true :=
  (c10_blocked_flag_never_set _
      (DomainsReachable.update [] 100 "http://a.example/"
        DomainsReachable.init)).2
    50 200 "http://a.example/"
    ⟨100, 1, false, ""⟩ rfl (by decide)

/-- Reducing the index modulo the pool size leaves `usableAt`
unchanged. -/
theorem usableAt_mod (ps : List Proxy) (i : Nat) :
    usableAt ps (i % ps.length) = usableAt ps i := by
  unfold usableAt
  rw [Nat.mod_mod_of_dvd i dvd_rfl]

/-- `usableAt` is periodic with the pool size as period. -/
theorem usableAt_add_len (ps : List Proxy) (i : Nat) :
    usableAt ps (i + ps.length) = usableAt ps i := by
  unfold usableAt
  rw [Nat.add_mod_right]

/-- A successful bounded search returns a usable position inside its
window. -/
theorem firstUsableFrom_some (ps : List Proxy) :
    ∀ fuel a b, firstUsableFrom ps a fuel = some b →
      a ≤ b ∧ b < a + fuel ∧ usableAt ps b = true := by
  intro fuel
  induction fuel with
  | zero => intro a b h; simp [firstUsableFrom] at h
  | succ f ih =>
      intro a b h
      by_cases hu : usableAt ps a = true
      · simp only [firstUsableFrom, hu, if_true, Option.some.injEq] at h
        subst h
        exact ⟨Nat.le_refl a, by omega, hu⟩
      · simp only [Bool.not_eq_true] at hu
        simp only [firstUsableFrom, hu] at h
        obtain ⟨h1, h2, h3⟩ := ih (a + 1) b h
        exact ⟨by omega, by omega, h3⟩

/-- A successful bounded search returns the first usable position: all
earlier positions of the scan are unusable. -/
theorem firstUsableFrom_min (ps : List Proxy) :
    ∀ fuel a b, firstUsableFrom ps a fuel = some b →
      ∀ x, a ≤ x → x < b → usableAt ps x = false := by
  intro fuel
  induction fuel with
  | zero => intro a b h; simp [firstUsableFrom] at h
  | succ f ih =>
      intro a b h x hax hxb
      by_cases hu : usableAt ps a = true
      · simp only [firstUsableFrom, hu, if_true, Option.some.injEq] at h
        omega
      · simp only [Bool.not_eq_true] at hu
        simp only [firstUsableFrom, hu] at h
        rcases Nat.eq_or_lt_of_le hax with h1 | h1
        · subst h1; exact hu
        · exact ih (a + 1) b h x h1 hxb

/-- A failed bounded search means no position of its window is
usable. -/
theorem firstUsableFrom_none (ps : List Proxy) :
    ∀ fuel a, firstUsableFrom ps a fuel = none →
      ∀ x, a ≤ x → x < a + fuel → usableAt ps x = false := by
  intro fuel
  induction fuel with
  | zero => intro a _ x _ _; omega
  | succ f ih =>
      intro a h x hax hxb
      by_cases hu : usableAt ps a = true
      · simp [firstUsableFrom, hu] at h
      · simp only [Bool.not_eq_true] at hu
        simp only [firstUsableFrom, hu] at h
        rcases Nat.eq_or_lt_of_le hax with h1 | h1
        · subst h1; exact hu
        · exact ih (a + 1) h x h1 (by omega)

/-- Every half-open window of one full period contains a position with
any prescribed residue. -/
theorem exists_rep_in_window (ps : List Proxy) (j : Nat)
    (hj : j < ps.length) (a : Nat) :
    ∃ b, a ≤ b ∧ b < a + ps.length ∧ b % ps.length = j := by
  set n := ps.length with hn
  have hqr : n * (a / n) + a % n = a := Nat.div_add_mod a n
  have hr : a % n < n := Nat.mod_lt a (by omega)
  set M := n * (a / n) with hM
  by_cases hcase : a % n ≤ j
  · refine ⟨M + j, by omega, by omega, ?_⟩
    rw [hM, Nat.mul_add_mod]
    exact Nat.mod_eq_of_lt hj
  · refine ⟨M + j + n, by omega, by omega, ?_⟩
    rw [hM, Nat.add_assoc, Nat.mul_add_mod, Nat.add_mod_right]
    exact Nat.mod_eq_of_lt hj

/-- With at least one usable proxy in the pool, every full-period window
contains a usable position. -/
theorem exists_usable_in_window (ps : List Proxy)
    (hU : ∃ i, i < ps.length ∧ usable (ps.getD i dummyProxy) = true)
    (a : Nat) :
    ∃ b, a ≤ b ∧ b < a + ps.length ∧ usableAt ps b = true := by
  obtain ⟨i, hi, hui⟩ := hU
  obtain ⟨b, h1, h2, h3⟩ := exists_rep_in_window ps i hi a
  refine ⟨b, h1, h2, ?_⟩
  unfold usableAt
  rw [h3]
  exact hui

/-- `nextUsable` never moves backwards. -/
theorem nextUsable_ge (ps : List Proxy) (a : Nat) : a ≤ nextUsable ps a := by
  unfold nextUsable
  cases h : firstUsableFrom ps a ps.length with
  | none => simp
  | some b =>
      simp only [Option.getD_some]
      exact (firstUsableFrom_some ps ps.length a b h).1

/-- With a usable proxy in the pool, `nextUsable` lands on a usable
position strictly within one period. -/
theorem nextUsable_spec (ps : List Proxy)
    (hU : ∃ i, i < ps.length ∧ usable (ps.getD i dummyProxy) = true)
    (a : Nat) :
    usableAt ps (nextUsable ps a) = true ∧
    nextUsable ps a < a + ps.length := by
  obtain ⟨b, h1, h2, h3⟩ := exists_usable_in_window ps hU a
  cases h : firstUsableFrom ps a ps.length with
  | none =>
      exact absurd (firstUsableFrom_none ps ps.length a h b h1 h2)
        (by simp [h3])
  | some b' =>
      obtain ⟨g1, g2, g3⟩ := firstUsableFrom_some ps ps.length a b' h
      unfold nextUsable
      rw [h]
      exact ⟨g3, g2⟩

/-- Positions strictly between `a` and `nextUsable ps a` are
unusable. -/
theorem nextUsable_min (ps : List Proxy) (a : Nat) :
    ∀ x, a ≤ x → x < nextUsable ps a → usableAt ps x = false := by
  intro x hax hx
  unfold nextUsable at hx
  cases h : firstUsableFrom ps a ps.length with
  | none => rw [h] at hx; simp at hx; omega
  | some b =>
      rw [h] at hx
      simp only [Option.getD_some] at hx
      exact firstUsableFrom_min ps ps.length a b h x hax hx

/-- `nextUsable ps a` is a lower bound on every usable position at or
after `a`. -/
theorem nextUsable_le_of_usable (ps : List Proxy) (a x : Nat)
    (hax : a ≤ x) (hx : usableAt ps x = true) : nextUsable ps a ≤ x := by
  by_contra h
  push_neg at h
  exact absurd (nextUsable_min ps a x hax h) (by simp [hx])

/-- Uniqueness: any usable position at or after `a` below which no
position at or after `a` is usable equals `nextUsable ps a`. -/
theorem nextUsable_unique (ps : List Proxy)
    (hU : ∃ i, i < ps.length ∧ usable (ps.getD i dummyProxy) = true)
    (a b : Nat) (hab : a ≤ b) (hb : usableAt ps b = true)
    (hmin : ∀ x, a ≤ x → x < b → usableAt ps x = false) :
    nextUsable ps a = b := by
  have h1 : nextUsable ps a ≤ b := nextUsable_le_of_usable ps a b hab hb
  rcases Nat.eq_or_lt_of_le h1 with h2 | h2
  · exact h2
  · have := hmin (nextUsable ps a) (nextUsable_ge ps a) h2
    exact absurd (nextUsable_spec ps hU a).1 (by simp [this])

/-- `nextUsable` commutes with shifting by one period. -/
theorem nextUsable_add_len (ps : List Proxy)
    (hU : ∃ i, i < ps.length ∧ usable (ps.getD i dummyProxy) = true)
    (a : Nat) :
    nextUsable ps (a + ps.length) = nextUsable ps a + ps.length := by
  refine nextUsable_unique ps hU _ _ ?_ ?_ ?_
  · exact Nat.add_le_add_right (nextUsable_ge ps a) _
  · rw [usableAt_add_len]
    exact (nextUsable_spec ps hU a).1
  · intro x hax hx
    have hxl : ps.length ≤ x := le_trans (Nat.le_add_left _ _) hax
    have hsub : x - ps.length + ps.length = x := Nat.sub_add_cancel hxl
    have := nextUsable_min ps a (x - ps.length) (by omega) (by omega)
    rw [← hsub, usableAt_add_len]
    exact this

/-- `nextUsable` commutes with shifting by any multiple of the
period. -/
theorem nextUsable_add_mul (ps : List Proxy)
    (hU : ∃ i, i < ps.length ∧ usable (ps.getD i dummyProxy) = true)
    (a q : Nat) :
    nextUsable ps (a + ps.length * q) = nextUsable ps a + ps.length * q := by
  induction q with
  | zero => simp
  | succ q ih =>
      have h1 : a + ps.length * (q + 1)
          = (a + ps.length * q) + ps.length := by ring
      rw [h1, nextUsable_add_len ps hU, ih]
      ring

/-- The residue of `nextUsable` depends only on the residue of the
start. -/
theorem nextUsable_mod_eq (ps : List Proxy)
    (hU : ∃ i, i < ps.length ∧ usable (ps.getD i dummyProxy) = true)
    (a : Nat) :
    nextUsable ps (a % ps.length) % ps.length
      = nextUsable ps a % ps.length := by
  have h1 : a % ps.length + ps.length * (a / ps.length) = a :=
    Nat.mod_add_div a ps.length
  conv_rhs => rw [← h1]
  rw [nextUsable_add_mul ps hU, Nat.add_mul_mod_self_left]

/-- Usable-position counts over adjacent intervals add. -/
theorem usableBetween_add (ps : List Proxy) (a b c : Nat)
    (h1 : a ≤ b) (h2 : b ≤ c) :
    usableBetween ps a b + usableBetween ps b c = usableBetween ps a c := by
  unfold usableBetween
  rw [← Finset.Ioc_union_Ioc_eq_Ioc h1 h2, Finset.filter_union]
  rw [Finset.card_union_of_disjoint]
  rw [Finset.disjoint_left]
  intro x hx1 hx2
  have g1 := (Finset.mem_Ioc.mp (Finset.mem_of_mem_filter x hx1)).2
  have g2 := (Finset.mem_Ioc.mp (Finset.mem_of_mem_filter x hx2)).1
  omega

/-- The usable count of a single-point interval. -/
theorem usableBetween_point (ps : List Proxy) (a : Nat) :
    usableBetween ps a (a + 1)
      = if usableAt ps (a + 1) = true then 1 else 0 := by
  unfold usableBetween
  rw [Nat.Ioc_succ_singleton, Finset.filter_singleton]
  by_cases h : usableAt ps (a + 1) = true
  · simp [h]
  · simp [h]

/-- A full-period window has the same usable count wherever it
starts. -/
theorem usableBetween_window (ps : List Proxy) (a : Nat) :
    usableBetween ps a (a + ps.length)
      = usableBetween ps 0 ps.length := by
  induction a with
  | zero => simp
  | succ a ih =>
      have h1 : usableBetween ps a (a + 1)
          + usableBetween ps (a + 1) (a + 1 + ps.length)
          = usableBetween ps a (a + 1 + ps.length) :=
        usableBetween_add ps _ _ _ (by omega) (by omega)
      have h2 : usableBetween ps a (a + ps.length)
          + usableBetween ps (a + ps.length) (a + ps.length + 1)
          = usableBetween ps a (a + ps.length + 1) :=
        usableBetween_add ps _ _ _ (by omega) (by omega)
      have h3 : a + 1 + ps.length = a + ps.length + 1 := by omega
      have h4 : usableBetween ps (a + ps.length) (a + ps.length + 1)
          = usableBetween ps a (a + 1) := by
        rw [usableBetween_point, usableBetween_point]
        have : a + ps.length + 1 = (a + 1) + ps.length := by omega
        rw [this, usableAt_add_len]
      have h5 : usableBetween ps (a + 1) (a + 1 + ps.length)
          = usableBetween ps (a + 1) (a + ps.length + 1) := by rw [h3]
      rw [h3] at h1
      omega

/-- The usable count of the canonical window `(0, n]` is the number of
usable proxies of the pool. -/
theorem usableBetween_canonical (ps : List Proxy) :
    usableBetween ps 0 ps.length = usableCount ps := by
  cases hn : ps.length with
  | zero =>
      unfold usableBetween usableCount
      rw [hn]
      simp
  | succ m =>
      unfold usableBetween usableCount
      rw [hn]
      have hsplit : Finset.range (m + 1) = insert 0 (Finset.Ioc 0 m) := by
        ext x
        simp [Finset.mem_range, Finset.mem_Ioc]
        omega
      have htop : Finset.Ioc 0 (m + 1) = insert (m + 1) (Finset.Ioc 0 m) := by
        ext x
        simp [Finset.mem_Ioc]
        omega
      rw [hsplit, htop, Finset.filter_insert, Finset.filter_insert]
      have hper : usableAt ps (m + 1) = usableAt ps 0 := by
        have := usableAt_add_len ps 0
        rw [hn] at this
        simpa using this
      have hmem : ∀ x ∈ Finset.Ioc 0 m,
          (usableAt ps x = true) = (usable (ps.getD x dummyProxy) = true) := by
        intro x hx
        obtain ⟨hx1, hx2⟩ := Finset.mem_Ioc.mp hx
        unfold usableAt
        rw [hn, Nat.mod_eq_of_lt (by omega)]
      have hfilter : Finset.filter (fun x => usableAt ps x = true)
            (Finset.Ioc 0 m)
          = Finset.filter (fun i => usable (ps.getD i dummyProxy) = true)
            (Finset.Ioc 0 m) := by
        apply Finset.filter_congr
        intro x hx
        rw [hmem x hx]
      have h0 : usableAt ps 0 = (usable (ps.getD 0 dummyProxy)) := by
        unfold usableAt
        rw [hn, Nat.mod_eq_of_lt (by omega)]
      have hnotmem1 : (m + 1) ∉ Finset.Ioc 0 m := by simp
      have hnotmem2 : (0 : Nat) ∉ Finset.Ioc 0 m := by simp
      by_cases hu : usableAt ps 0 = true
      · rw [if_pos (by rw [hper]; exact hu), if_pos (by rw [← h0]; exact hu)]
        rw [hfilter]
        rw [Finset.card_insert_of_not_mem (by
            intro hmem1
            exact hnotmem1 (Finset.mem_of_mem_filter _ hmem1)),
          Finset.card_insert_of_not_mem (by
            intro hmem2
            exact hnotmem2 (Finset.mem_of_mem_filter _ hmem2))]
      · rw [if_neg (by rw [hper]; exact hu), if_neg (by rw [← h0]; exact hu)]
        rw [hfilter]

/-- A pool containing a usable proxy has positive usable count. -/
theorem usableCount_pos (ps : List Proxy)
    (hU : ∃ i, i < ps.length ∧ usable (ps.getD i dummyProxy) = true) :
    0 < usableCount ps := by
  obtain ⟨i, hi, hui⟩ := hU
  apply Finset.card_pos.mpr
  exact ⟨i, Finset.mem_filter.mpr ⟨Finset.mem_range.mpr hi, hui⟩⟩

/-- Every position of the return stream is usable. -/
theorem Rseq_usable (ps : List Proxy)
    (hU : ∃ i, i < ps.length ∧ usable (ps.getD i dummyProxy) = true)
    (c0 : Nat) (k : Nat) : usableAt ps (Rseq ps c0 k) = true := by
  cases k with
  | zero => exact (nextUsable_spec ps hU c0).1
  | succ k => exact (nextUsable_spec ps hU (Rseq ps c0 k + 1)).1

/-- The return stream is strictly increasing step by step. -/
theorem Rseq_lt_succ (ps : List Proxy) (c0 : Nat) (k : Nat) :
    Rseq ps c0 k < Rseq ps c0 (k + 1) := by
  have := nextUsable_ge ps (Rseq ps c0 k + 1)
  simp only [Rseq]
  omega

/-- The return stream is strictly monotone. -/
theorem Rseq_mono (ps : List Proxy) (c0 : Nat) (k m : Nat) (h : k < m) :
    Rseq ps c0 k < Rseq ps c0 m := by
  induction m with
  | zero => omega
  | succ m ih =>
      rcases Nat.lt_succ_iff_lt_or_eq.mp h with h1 | h1
      · exact lt_trans (ih h1) (Rseq_lt_succ ps c0 m)
      · subst h1; exact Rseq_lt_succ ps c0 k

/-- Exactly one usable position lies in the gap between consecutive
stream returns (namely the next return itself). -/
theorem Rseq_step_count (ps : List Proxy)
    (hU : ∃ i, i < ps.length ∧ usable (ps.getD i dummyProxy) = true)
    (c0 : Nat) (k : Nat) :
    usableBetween ps (Rseq ps c0 k) (Rseq ps c0 (k + 1)) = 1 := by
  unfold usableBetween
  have hsing : Finset.filter (fun x => usableAt ps x = true)
      (Finset.Ioc (Rseq ps c0 k) (Rseq ps c0 (k + 1)))
      = {Rseq ps c0 (k + 1)} := by
    ext x
    simp only [Finset.mem_filter, Finset.mem_Ioc, Finset.mem_singleton]
    constructor
    · rintro ⟨⟨hx1, hx2⟩, hx3⟩
      by_contra hne
      have hxlt : x < Rseq ps c0 (k + 1) := by
        rcases Nat.eq_or_lt_of_le hx2 with h1 | h1
        · exact absurd h1 hne
        · exact h1
      have := nextUsable_min ps (Rseq ps c0 k + 1) x (by omega)
        (by simpa [Rseq] using hxlt)
      simp [hx3] at this
    · intro hx
      subst hx
      exact ⟨⟨Rseq_lt_succ ps c0 k, Nat.le_refl _⟩,
        Rseq_usable ps hU c0 (k + 1)⟩
  rw [hsing, Finset.card_singleton]

/-- The gap from return `k` to return `k + m` contains exactly `m`
usable positions. -/
theorem Rseq_count (ps : List Proxy)
    (hU : ∃ i, i < ps.length ∧ usable (ps.getD i dummyProxy) = true)
    (c0 : Nat) (k m : Nat) :
    usableBetween ps (Rseq ps c0 k) (Rseq ps c0 (k + m)) = m := by
  induction m with
  | zero => simp [usableBetween]
  | succ m ih =>
      have hadd := usableBetween_add ps (Rseq ps c0 k) (Rseq ps c0 (k + m))
        (Rseq ps c0 (k + m + 1))
        (by rcases Nat.eq_zero_or_pos m with h | h
            · simp [h]
            · exact le_of_lt (Rseq_mono ps c0 k (k + m) (by omega)))
        (le_of_lt (Rseq_lt_succ ps c0 (k + m)))
      have hstep := Rseq_step_count ps hU c0 (k + m)
      have hkm : k + (m + 1) = k + m + 1 := by omega
      rw [hkm]
      omega

/-- Two usable positions strictly above `a` with equal usable counts
from `a` coincide. -/
theorem usableBetween_inj (ps : List Proxy) (a b1 b2 : Nat)
    (hb1 : usableAt ps b1 = true) (hb2 : usableAt ps b2 = true)
    (ha1 : a < b1) (ha2 : a < b2)
    (hcount : usableBetween ps a b1 = usableBetween ps a b2) : b1 = b2 := by
  rcases lt_trichotomy b1 b2 with h | h | h
  · exfalso
    have hadd := usableBetween_add ps a b1 b2 (le_of_lt ha1) (le_of_lt h)
    have hpos : 0 < usableBetween ps b1 b2 := by
      apply Finset.card_pos.mpr
      exact ⟨b2, Finset.mem_filter.mpr ⟨Finset.mem_Ioc.mpr ⟨h, le_refl _⟩, hb2⟩⟩
    omega
  · exact h
  · exfalso
    have hadd := usableBetween_add ps a b2 b1 (le_of_lt ha2) (le_of_lt h)
    have hpos : 0 < usableBetween ps b2 b1 := by
      apply Finset.card_pos.mpr
      exact ⟨b1, Finset.mem_filter.mpr ⟨Finset.mem_Ioc.mpr ⟨h, le_refl _⟩, hb1⟩⟩
    omega

/-- Periodicity of the return stream: after `usableCount ps` further
calls the stream has advanced by exactly one full rotation. -/
theorem Rseq_period (ps : List Proxy)
    (hU : ∃ i, i < ps.length ∧ usable (ps.getD i dummyProxy) = true)
    (c0 : Nat) (k : Nat) :
    Rseq ps c0 (k + usableCount ps) = Rseq ps c0 k + ps.length := by
  have hUpos := usableCount_pos ps hU
  have hn : 0 < ps.length := by
    obtain ⟨i, hi, _⟩ := hU
    omega
  apply usableBetween_inj ps (Rseq ps c0 k)
  · exact Rseq_usable ps hU c0 (k + usableCount ps)
  · rw [usableAt_add_len]
    exact Rseq_usable ps hU c0 k
  · exact Rseq_mono ps c0 k (k + usableCount ps) (by omega)
  · omega
  · rw [Rseq_count ps hU c0 k (usableCount ps)]
    rw [usableBetween_window ps (Rseq ps c0 k),
      usableBetween_canonical ps]

/-- Every usable position in the one-rotation window after return `k`
is hit by the stream within the next `usableCount ps` calls. -/
theorem Rseq_between (ps : List Proxy)
    (hU : ∃ i, i < ps.length ∧ usable (ps.getD i dummyProxy) = true)
    (c0 : Nat) (k x : Nat) (hx : usableAt ps x = true)
    (h1 : Rseq ps c0 k < x) (h2 : x ≤ Rseq ps c0 k + ps.length) :
    ∃ m, k < m ∧ m ≤ k + usableCount ps ∧ Rseq ps c0 m = x := by
  set d := usableBetween ps (Rseq ps c0 k) x with hd
  have hdpos : 0 < d := by
    apply Finset.card_pos.mpr
    exact ⟨x, Finset.mem_filter.mpr ⟨Finset.mem_Ioc.mpr ⟨h1, le_refl _⟩, hx⟩⟩
  have hdle : d ≤ usableCount ps := by
    have hadd := usableBetween_add ps (Rseq ps c0 k) x
      (Rseq ps c0 k + ps.length) (le_of_lt h1) h2
    have hwin : usableBetween ps (Rseq ps c0 k)
        (Rseq ps c0 k + ps.length) = usableCount ps := by
      rw [usableBetween_window, usableBetween_canonical]
    omega
  refine ⟨k + d, by omega, by omega, ?_⟩
  apply usableBetween_inj ps (Rseq ps c0 k)
  · exact Rseq_usable ps hU c0 (k + d)
  · exact hx
  · exact Rseq_mono ps c0 k (k + d) (by omega)
  · exact h1
  · rw [Rseq_count ps hU c0 k d]

/-- A usable start is its own next usable position. -/
theorem nextUsable_eq_self (ps : List Proxy) (a : Nat)
    (hn : 0 < ps.length) (hu : usableAt ps a = true) :
    nextUsable ps a = a := by
  unfold nextUsable
  cases hl : ps.length with
  | zero => omega
  | succ m =>
      simp [firstUsableFrom, hu]

/-- Skipping an unusable start advances `nextUsable` by one step. -/
theorem nextUsable_succ_of_false (ps : List Proxy)
    (hU : ∃ i, i < ps.length ∧ usable (ps.getD i dummyProxy) = true)
    (a : Nat) (hu : usableAt ps a = false) :
    nextUsable ps a = nextUsable ps (a + 1) := by
  refine (nextUsable_unique ps hU a (nextUsable ps (a + 1)) ?_
    (nextUsable_spec ps hU (a + 1)).1 ?_)
  · have := nextUsable_ge ps (a + 1)
    omega
  · intro x hax hx
    rcases Nat.eq_or_lt_of_le hax with h1 | h1
    · subst h1; exact hu
    · exact nextUsable_min ps (a + 1) x h1 hx

/-- Incrementing before or after reduction modulo the pool size gives
the same residue. -/
theorem mod_succ_mod (a n : Nat) : (a % n + 1) % n = (a + 1) % n := by
  conv_rhs => rw [Nat.add_mod]
  rw [Nat.add_mod (a % n) 1, Nat.mod_mod_of_dvd a dvd_rfl]

/-- The Go scan loop started at line position `a` (cursor `a % n`)
returns the next usable position's residue and advances the cursor just
past it, provided the fuel window reaches that position. -/
theorem ghpGo_line (ps : List Proxy)
    (hU : ∃ i, i < ps.length ∧ usable (ps.getD i dummyProxy) = true) :
    ∀ fuel a, nextUsable ps a < a + fuel →
      ghpGo ps fuel (a % ps.length)
        = (some (nextUsable ps a % ps.length),
           (nextUsable ps a % ps.length + 1) % ps.length) := by
  have hn : 0 < ps.length := by
    obtain ⟨i, hi, _⟩ := hU
    omega
  intro fuel
  induction fuel with
  | zero =>
      intro a h
      have := nextUsable_ge ps a
      omega
  | succ f ih =>
      intro a h
      have hcheck : usable (ps.getD (a % ps.length) dummyProxy)
          = usableAt ps a := rfl
      by_cases hu : usableAt ps a = true
      · have heq : nextUsable ps a = a := nextUsable_eq_self ps a hn hu
        simp only [ghpGo, hcheck, hu, if_true, heq]
      · simp only [Bool.not_eq_true] at hu
        have hskip : nextUsable ps a = nextUsable ps (a + 1) :=
          nextUsable_succ_of_false ps hU a hu
        have hrec := ih (a + 1) (by omega)
        simp only [ghpGo, hcheck, hu, Bool.false_eq_true, if_false]
        rw [mod_succ_mod a ps.length, hrec, hskip]

/-- `getHealthyProxy` on a pool with a usable proxy and an in-range
cursor: it hands out the next usable position (reduced to an index) and
advances the cursor just past it. -/
theorem getHealthyProxy_spec (ps : List Proxy) (c : Nat)
    (hU : ∃ i, i < ps.length ∧ usable (ps.getD i dummyProxy) = true)
    (hc : c < ps.length) :
    getHealthyProxy ⟨ps, c⟩
      = (some (nextUsable ps c % ps.length),
         (nextUsable ps c % ps.length + 1) % ps.length) := by
  have hn : 0 < ps.length := by omega
  have hwin : nextUsable ps c < c + ps.length := (nextUsable_spec ps hU c).2
  have := ghpGo_line ps hU ps.length c hwin
  rw [Nat.mod_eq_of_lt hc] at this
  unfold getHealthyProxy
  simp only [show (⟨ps, c⟩ : Pool).proxies = ps from rfl,
    show (⟨ps, c⟩ : Pool).current = c from rfl]
  rw [if_neg (by omega)]
  exact this

/-- The sequential-call picture: after `k + 1` calls the pool's proxies
are untouched, the cursor sits one past the `k`-th return's index, and
the `k`-th return is the `k`-th stream position reduced to an index. -/
theorem poolIter_spec (ps : List Proxy) (c0 : Nat)
    (hU : ∃ i, i < ps.length ∧ usable (ps.getD i dummyProxy) = true)
    (hc : c0 < ps.length) :
    ∀ k, (poolIter ⟨ps, c0⟩ k).proxies = ps ∧
      (poolIter ⟨ps, c0⟩ (k + 1)).current
        = (Rseq ps c0 k % ps.length + 1) % ps.length ∧
      retAt ⟨ps, c0⟩ k = some (Rseq ps c0 k % ps.length) := by
  have hn : 0 < ps.length := by
    obtain ⟨i, hi, _⟩ := hU
    omega
  intro k
  induction k with
  | zero =>
      have hspec := getHealthyProxy_spec ps c0 hU hc
      refine ⟨rfl, ?_, ?_⟩
      · show (poolStep ⟨ps, c0⟩).current = _
        unfold poolStep
        rw [hspec]
        simp [Rseq]
      · show (getHealthyProxy ⟨ps, c0⟩).1 = _
        rw [hspec]
        simp [Rseq]
  | succ k ih =>
      obtain ⟨ih1, ih2, ih3⟩ := ih
      have hpool : poolIter ⟨ps, c0⟩ (k + 1)
          = ⟨ps, (Rseq ps c0 k % ps.length + 1) % ps.length⟩ := by
        have h1 : (poolIter ⟨ps, c0⟩ (k + 1)).proxies = ps := by
          show (poolStep (poolIter ⟨ps, c0⟩ k)).proxies = ps
          unfold poolStep
          exact ih1
        cases hpp : poolIter ⟨ps, c0⟩ (k + 1) with
        | mk prx cur =>
            rw [hpp] at h1 ih2
            simp only at h1 ih2
            rw [h1, ih2]
      have hcur : (Rseq ps c0 k % ps.length + 1) % ps.length
          = (Rseq ps c0 k + 1) % ps.length :=
        mod_succ_mod (Rseq ps c0 k) ps.length
      have hcur_lt : (Rseq ps c0 k + 1) % ps.length < ps.length :=
        Nat.mod_lt _ hn
      have hspec := getHealthyProxy_spec ps
        ((Rseq ps c0 k + 1) % ps.length) hU hcur_lt
      have hmod := nextUsable_mod_eq ps hU (Rseq ps c0 k + 1)
      have hnext : nextUsable ps ((Rseq ps c0 k + 1) % ps.length)
            % ps.length
          = Rseq ps c0 (k + 1) % ps.length := by
        rw [hmod]
        rfl
      refine ⟨?_, ?_, ?_⟩
      · show (poolStep (poolIter ⟨ps, c0⟩ (k + 1))).proxies = ps
        unfold poolStep
        rw [hpool]
      · show (poolStep (poolIter ⟨ps, c0⟩ (k + 1))).current = _
        unfold poolStep
        rw [hpool, hcur, hspec]
        simp only
        rw [hnext]
      · show (getHealthyProxy (poolIter ⟨ps, c0⟩ (k + 1))).1 = _
        rw [hpool, hcur, hspec]
        simp only
        rw [hnext]

/-- A scan over a pool with no usable proxy fails and leaves the cursor
where the scan started plus the fuel, modulo the size. -/
theorem ghpGo_none (ps : List Proxy)
    (hdead : ∀ i, i < ps.length → usable (ps.getD i dummyProxy) = false)
    (hn : 0 < ps.length) :
    ∀ fuel c, ghpGo ps fuel (c % ps.length)
      = (none, (c + fuel) % ps.length) := by
  have hu : ∀ a, usableAt ps a = false := by
    intro a
    exact hdead (a % ps.length) (Nat.mod_lt a hn)
  intro fuel
  induction fuel with
  | zero => intro c; simp [ghpGo]
  | succ f ih =>
      intro c
      have hcheck : usable (ps.getD (c % ps.length) dummyProxy)
          = usableAt ps c := rfl
      simp only [ghpGo, hcheck, hu c, Bool.false_eq_true, if_false]
      rw [mod_succ_mod c ps.length, ih (c + 1)]
      have : c + 1 + f = c + (f + 1) := by omega
      rw [this]

/-- C7: round-robin fairness of `GetProxy` on a fixed pool. With at
least one usable proxy (healthy ∧ fail-count < 5): every sequential call
returns a usable proxy; the same proxy returns again exactly
`usableCount` calls later and never earlier, and every usable proxy is
returned within that window — so between two consecutive returns of any
proxy P, every other usable proxy is returned (exactly) once; the cursor
always advances just past the returned element. With no usable proxy,
the scan fails after exactly one full rotation, leaving the cursor at
its starting point, and `GetProxy` yields the no-healthy-proxy error. -/
theorem c7_round_robin_fairness (pool : Pool)
    (hc : pool.current < pool.proxies.length) :
    ((∃ i, i < pool.proxies.length ∧
        usable (pool.proxies.getD i dummyProxy) = true) →
      (∀ k, ∃ j, j < pool.proxies.length ∧ retAt pool k = some j ∧
          usable (pool.proxies.getD j dummyProxy) = true) ∧
      (∀ k, retAt pool (k + usableCount pool.proxies) = retAt pool k) ∧
      (∀ k m, k < m → m < k + usableCount pool.proxies →
        retAt pool m ≠ retAt pool k) ∧
      (∀ j, j < pool.proxies.length →
        usable (pool.proxies.getD j dummyProxy) = true →
        ∀ k, ∃ m, k < m ∧ m ≤ k + usableCount pool.proxies ∧
          retAt pool m = some j) ∧
      (∀ k j, retAt pool k = some j →
        (poolIter pool (k + 1)).current = (j + 1) % pool.proxies.length)) ∧
    ((∀ i, i < pool.proxies.length →
        usable (pool.proxies.getD i dummyProxy) = false) →
      getHealthyProxy pool = (none, pool.current) ∧
      getProxyFromPool pool
        = Except.error "no healthy proxies available") := by
  obtain ⟨ps, c0⟩ := pool
  simp only at hc ⊢
  have hn : 0 < ps.length := by omega
  constructor
  · intro hU
    have hiter := poolIter_spec ps c0 hU hc
    refine ⟨?_, ?_, ?_, ?_, ?_⟩
    · intro k
      obtain ⟨_, _, h3⟩ := hiter k
      refine ⟨Rseq ps c0 k % ps.length, Nat.mod_lt _ hn, h3, ?_⟩
      have := Rseq_usable ps hU c0 k
      exact this
    · intro k
      obtain ⟨_, _, h3⟩ := hiter k
      obtain ⟨_, _, h3'⟩ := hiter (k + usableCount ps)
      rw [h3, h3', Rseq_period ps hU c0 k, Nat.add_mod_right]
    · intro k m hkm hmk heq
      obtain ⟨_, _, h3⟩ := hiter k
      obtain ⟨_, _, h3'⟩ := hiter m
      rw [h3, h3'] at heq
      have hmods : Rseq ps c0 m % ps.length = Rseq ps c0 k % ps.length :=
        Option.some.inj heq
      have hlt : Rseq ps c0 k < Rseq ps c0 m := Rseq_mono ps c0 k m hkm
      have hub : Rseq ps c0 m < Rseq ps c0 k + ps.length := by
        have := Rseq_mono ps c0 m (k + usableCount ps) hmk
        rw [Rseq_period ps hU c0 k] at this
        exact this
      set d := Rseq ps c0 m - Rseq ps c0 k with hdd
      have hm_eq : Rseq ps c0 m = Rseq ps c0 k + d := by omega
      rw [hm_eq, Nat.add_mod] at hmods
      have hx : Rseq ps c0 k % ps.length < ps.length := Nat.mod_lt _ hn
      have hdn : d % ps.length = d := Nat.mod_eq_of_lt (by omega)
      rw [hdn] at hmods
      by_cases hcase : Rseq ps c0 k % ps.length + d < ps.length
      · rw [Nat.mod_eq_of_lt hcase] at hmods
        omega
      · rw [Nat.mod_eq_sub_mod (by omega),
          Nat.mod_eq_of_lt (by omega)] at hmods
        omega
    · intro j hj huj k
      obtain ⟨x, hx1, hx2, hx3⟩ :=
        exists_rep_in_window ps j hj (Rseq ps c0 k + 1)
      have hux : usableAt ps x = true := by
        unfold usableAt
        rw [hx3]
        exact huj
      obtain ⟨m, hm1, hm2, hm3⟩ := Rseq_between ps hU c0 k x hux
        (by omega) (by omega)
      obtain ⟨_, _, h3⟩ := hiter m
      refine ⟨m, hm1, hm2, ?_⟩
      rw [h3, hm3, hx3]
    · intro k j hj
      obtain ⟨_, h2, h3⟩ := hiter k
      rw [h3] at hj
      have := Option.some.inj hj
      rw [h2, this]
  · intro hdead
    have hgo := ghpGo_none ps hdead hn ps.length c0
    rw [Nat.mod_eq_of_lt hc, Nat.add_mod_right, Nat.mod_eq_of_lt hc] at hgo
    have hghp : getHealthyProxy ⟨ps, c0⟩ = (none, c0) := by
      unfold getHealthyProxy
      simp only
      rw [if_neg (by omega)]
      exact hgo
    refine ⟨hghp, ?_⟩
    unfold getProxyFromPool
    rw [hghp]

/-- C7 witness: on a pool of three proxies with the middle one
unusable (cursor 0), the stream repeats with period `usableCount = 2`,
the first return is proxy 0 with the cursor advanced to 1, and a pool
whose only proxy is unusable fails with the no-healthy-proxy error,
cursor unmoved. -/
theorem c7_round_robin_fairness_witness :
    retAt ⟨[⟨"a", "h", 1, true, 0⟩, ⟨"b", "h", 1, false, 0⟩,
        ⟨"c", "h", 1, true, 0⟩], 0⟩
        (0 + usableCount [⟨"a", "h", 1, true, 0⟩, ⟨"b", "h", 1, false, 0⟩,
          ⟨"c", "h", 1, true, 0⟩])
      = retAt ⟨[⟨"a", "h", 1, true, 0⟩, ⟨"b", "h", 1, false, 0⟩,
          ⟨"c", "h", 1, true, 0⟩], 0⟩ 0 ∧
    (poolIter ⟨[⟨"a", "h", 1, true, 0⟩, ⟨"b", "h", 1, false, 0⟩,
        ⟨"c", "h", 1, true, 0⟩], 0⟩ 1).current = (0 + 1) % 3 ∧
    getHealthyProxy ⟨[⟨"d", "h", 1, false, 7⟩], 0⟩ = (none, 0) ∧
    getProxyFromPool ⟨[⟨"d", "h", 1, false, 7⟩], 0⟩
      = Except.error "no healthy proxies available" := by
  refine ⟨?_, ?_, ?_, ?_⟩
  · exact ((c7_round_robin_fairness _ (by decide)).1
      ⟨0, by decide, by decide⟩).2.1 0
  · exact ((((c7_round_robin_fairness _ (by decide)).1
      ⟨0, by decide, by decide⟩).2.2.2.2) 0 0 (by decide))
  · exact ((c7_round_robin_fairness _ (by decide)).2 (by decide)).1
  · exact ((c7_round_robin_fairness _ (by decide)).2 (by decide)).2

end Crawler
